import Mathlib

/-!
Shallow embedding of the Kyber-KEM visualizer core (`src/app.py`) and proofs
of the specification claims.

The Python core is embedded as follows:
* bytes are `List ℕ` with values `< 256` where produced by the code;
* Python strings are `String`; `str.encode()` is an explicit UTF-8 encoder;
* `hashlib.sha256(..).hexdigest()` is a full executable SHA-256 over byte
  lists, hex-encoded with lowercase digits;
* fallible Python operations (`int(c, 16)` which can raise `ValueError`,
  `count / total` which can raise `ZeroDivisionError`, `np.reshape` which can
  raise on a size mismatch) return `Option`;
* `os.urandom` is modelled by passing the random bytes in as an argument;
* Python floats are idealized as real numbers; `round(x, 2)` is rounding to
  the nearest multiple of 1/100.
-/

/-! ### Generic helpers: Option-valued map, chunking, insertion-ordered keys -/

/-- Map an `Option`-valued function over a list, failing if any element fails
(the behaviour of a Python list comprehension whose body can raise). -/
def mapOpt (f : α → Option β) : List α → Option (List β)
  | [] => some []
  | a :: as => do
    let b ← f a
    let bs ← mapOpt f as
    pure (b :: bs)

/-- Fuel-driven worker for `chunksOf`. -/
def chunksAux (n : ℕ) : ℕ → List α → List (List α)
  | _, [] => []
  | 0, _ :: _ => []
  | fuel + 1, a :: as => (a :: as).take n :: chunksAux n fuel ((a :: as).drop n)

/-- Split a list into consecutive chunks of size `n` (the final chunk may be
shorter). This is the row-major semantics of `numpy.reshape` and of the
stride-`n` slice comprehension `[s[i:i+n] for i in range(0, len, n)]`. -/
def chunksOf (n : ℕ) (l : List α) : List (List α) :=
  chunksAux n l.length l

/-- Keys of `collections.Counter(l)` in first-seen (insertion) order. -/
def counterKeys [DecidableEq α] (l : List α) : List α :=
  l.foldl (fun acc x => if x ∈ acc then acc else acc ++ [x]) []

/-! ### Hex digits -/

/-- Lowercase hex alphabet, as produced by `hexdigest`. -/
def hexAlphabet : List Char := "0123456789abcdef".data

/-- A character is a lowercase hexadecimal digit. -/
def isHexLower (c : Char) : Prop := c ∈ hexAlphabet

instance (c : Char) : Decidable (isHexLower c) := by
  unfold isHexLower; infer_instance

/-- Value of one hex digit, as computed by Python `int(c, 16)` on a
single-character string: `0-9`, `a-f` and `A-F` are accepted, anything else
raises `ValueError` (here: `none`). -/
def hexDigitVal (c : Char) : Option ℕ :=
  let n := c.toNat
  if 48 ≤ n ∧ n ≤ 57 then some (n - 48)
  else if 97 ≤ n ∧ n ≤ 102 then some (n - 87)
  else if 65 ≤ n ∧ n ≤ 70 then some (n - 55)
  else none

/-- Python `int(h, 16)` on a string of hex digits: fails on the empty string,
otherwise folds the digit values in base 16. -/
def hexStrVal (cs : List Char) : Option ℕ :=
  match cs with
  | [] => none
  | _ :: _ => (mapOpt hexDigitVal cs).map (List.foldl (fun a d => 16 * a + d) 0)

/-- Hex character of a nibble value (used by `hexdigest`). -/
def hexChar (n : ℕ) : Char := hexAlphabet.getD n '0'

/-- Two lowercase hex characters of a byte value. -/
def byteToHex (b : ℕ) : List Char := [hexChar (b / 16), hexChar (b % 16)]

/-- Lowercase hex string of a byte list (Python `bytes.hex()` /
`hexdigest`). -/
def bytesToHexString (bs : List ℕ) : String := ⟨(bs.map byteToHex).flatten⟩

/-! ### UTF-8 (Python `str.encode()`) -/

/-- UTF-8 encoding of one code point. -/
def utf8EncodeChar (c : Char) : List ℕ :=
  let n := c.toNat
  if n < 128 then [n]
  else if n < 2048 then [192 ||| (n >>> 6), 128 ||| (n &&& 63)]
  else if n < 65536 then
    [224 ||| (n >>> 12), 128 ||| ((n >>> 6) &&& 63), 128 ||| (n &&& 63)]
  else
    [240 ||| (n >>> 18), 128 ||| ((n >>> 12) &&& 63),
      128 ||| ((n >>> 6) &&& 63), 128 ||| (n &&& 63)]

/-- UTF-8 encoding of a string (`message.encode()` in the source). -/
def utf8Encode (s : String) : List ℕ := (s.data.map utf8EncodeChar).flatten

/-! ### SHA-256 (`hashlib.sha256`) -/

/-- Reduce modulo 2^32 (word arithmetic of SHA-256). -/
def w32 (n : ℕ) : ℕ := n % 4294967296

/-- Rotate a 32-bit word right by `n` bits. -/
def rotr (n w : ℕ) : ℕ := w32 ((w >>> n) ||| (w <<< (32 - n)))

def shaCh (x y z : ℕ) : ℕ := (x &&& y) ^^^ ((x ^^^ 4294967295) &&& z)

def shaMaj (x y z : ℕ) : ℕ := (x &&& y) ^^^ (x &&& z) ^^^ (y &&& z)

def bigSigma0 (x : ℕ) : ℕ := rotr 2 x ^^^ rotr 13 x ^^^ rotr 22 x

def bigSigma1 (x : ℕ) : ℕ := rotr 6 x ^^^ rotr 11 x ^^^ rotr 25 x

def smallSigma0 (x : ℕ) : ℕ := rotr 7 x ^^^ rotr 18 x ^^^ (x >>> 3)

def smallSigma1 (x : ℕ) : ℕ := rotr 17 x ^^^ rotr 19 x ^^^ (x >>> 10)

/-- The eight working registers of SHA-256. -/
structure Sha256State where
  a : ℕ
  b : ℕ
  c : ℕ
  d : ℕ
  e : ℕ
  f : ℕ
  g : ℕ
  h : ℕ

/-- FIPS 180-4 initial hash value H(0) (decimal notation). -/
def sha256Init : Sha256State :=
  ⟨1779033703, 3144134277, 1013904242, 2773480762,
    1359893119, 2600822924, 528734635, 1541459225⟩

/-- FIPS 180-4 round constants K (decimal notation). -/
def sha256K : List ℕ :=
  [1116352408, 1899447441, 3049323471, 3921009573, 961987163,
   1508970993, 2453635748, 2870763221, 3624381080, 310598401,
   607225278, 1426881987, 1925078388, 2162078206, 2614888103,
   3248222580, 3835390401, 4022224774, 264347078, 604807628,
   770255983, 1249150122, 1555081692, 1996064986, 2554220882,
   2821834349, 2952996808, 3210313671, 3336571891, 3584528711,
   113926993, 338241895, 666307205, 773529912, 1294757372,
   1396182291, 1695183700, 1986661051, 2177026350, 2456956037,
   2730485921, 2820302411, 3259730800, 3345764771, 3516065817,
   3600352804, 4094571909, 275423344, 430227734, 506948616,
   659060556, 883997877, 958139571, 1322822218, 1537002063,
   1747873779, 1955562222, 2024104815, 2227730452, 2361852424,
   2428436474, 2756734187, 3204031479, 3329325298]

/-- Extend a 16-word block by `k` more schedule words. -/
def extendW : ℕ → List ℕ → List ℕ
  | 0, ws => ws
  | k + 1, ws =>
    extendW k (ws ++ [w32 (smallSigma1 (ws.getD (ws.length - 2) 0) +
      ws.getD (ws.length - 7) 0 + smallSigma0 (ws.getD (ws.length - 15) 0) +
      ws.getD (ws.length - 16) 0)])

/-- Message schedule W(0..63) of one block. -/
def sha256Schedule (block : List ℕ) : List ℕ := extendW 48 block

/-- One SHA-256 round, consuming a pair (round constant, schedule word). -/
def sha256Round (st : Sha256State) (kw : ℕ × ℕ) : Sha256State :=
  let t1 := w32 (st.h + bigSigma1 st.e + shaCh st.e st.f st.g + kw.1 + kw.2)
  let t2 := w32 (bigSigma0 st.a + shaMaj st.a st.b st.c)
  ⟨w32 (t1 + t2), st.a, st.b, st.c, w32 (st.d + t1), st.e, st.f, st.g⟩

/-- Compress one 16-word block into the running state. -/
def sha256Compress (st : Sha256State) (block : List ℕ) : Sha256State :=
  let ws := sha256Schedule block
  let t := (sha256K.zip ws).foldl sha256Round st
  ⟨w32 (st.a + t.a), w32 (st.b + t.b), w32 (st.c + t.c), w32 (st.d + t.d),
    w32 (st.e + t.e), w32 (st.f + t.f), w32 (st.g + t.g), w32 (st.h + t.h)⟩

/-- Big-endian bytes of a number, fixed width `k`. -/
def toBytesBE : ℕ → ℕ → List ℕ
  | 0, _ => []
  | k + 1, n => toBytesBE k (n / 256) ++ [n % 256]

/-- FIPS 180-4 padding: append 0x80, zeros to 56 mod 64, then the 64-bit
big-endian bit length. -/
def sha256Pad (msg : List ℕ) : List ℕ :=
  msg ++ 128 :: List.replicate ((119 - msg.length % 64) % 64) 0 ++
    toBytesBE 8 (8 * msg.length)

/-- Big-endian word of four bytes. -/
def bytesToWord (bs : List ℕ) : ℕ := bs.foldl (fun acc b => acc * 256 + b) 0

/-- The padded message as a list of 16-word blocks. -/
def sha256Blocks (msg : List ℕ) : List (List ℕ) :=
  (chunksOf 64 (sha256Pad msg)).map fun blk => (chunksOf 4 blk).map bytesToWord

/-- Big-endian bytes of one 32-bit word. -/
def wordBytes (w : ℕ) : List ℕ :=
  [(w >>> 24) % 256, (w >>> 16) % 256, (w >>> 8) % 256, w % 256]

/-- SHA-256 digest (32 bytes) of a byte list. -/
def sha256Digest (msg : List ℕ) : List ℕ :=
  let st := (sha256Blocks msg).foldl sha256Compress sha256Init
  wordBytes st.a ++ wordBytes st.b ++ wordBytes st.c ++ wordBytes st.d ++
    wordBytes st.e ++ wordBytes st.f ++ wordBytes st.g ++ wordBytes st.h

/-- Lowercase hex digest, as returned by `hashlib.sha256(..).hexdigest()`. -/
def sha256HexDigest (msg : List ℕ) : String := bytesToHexString (sha256Digest msg)

/-! ### The core functions of `src/app.py` -/

/-- Embedding of `derive_shared_secret` (`src/app.py` lines 18-20):
`hashlib.sha256(message.encode() + public_key).hexdigest()`. -/
def derive_shared_secret (message : String) (public_key : List ℕ) : String :=
  sha256HexDigest (utf8Encode message ++ public_key)

/-- Embedding of `kyber_encapsulate` (`src/app.py` lines 22-25). The 64
random bytes drawn from `os.urandom(64)` are passed in explicitly. -/
def kyber_encapsulate (randomBytes : List ℕ) (public_key : List ℕ)
    (message : String) : List ℕ × String :=
  (randomBytes, derive_shared_secret message public_key)

/-- Embedding of `kyber_decapsulate` (`src/app.py` lines 27-28). -/
def kyber_decapsulate (_ciphertext : List ℕ) (_secret_key : List ℕ)
    (message : String) (public_key : List ℕ) : String :=
  derive_shared_secret message public_key

/-- Round a real to the nearest multiple of 1/100 (Python `round(x, 2)`,
idealized over ℝ; Python breaks exact ties to even, which no claim here
depends on). -/
noncomputable def round2 (x : ℝ) : ℝ := (round (x * 100) : ℤ) / 100

/-- One summand of `calculate_entropy`: `(count / total) * log2(count / total)`.
Division by `total = 0` raises `ZeroDivisionError` in Python, hence `none`. -/
noncomputable def entropyTerm (total c : ℕ) : Option ℝ :=
  if total = 0 then none
  else some (((c : ℝ) / total) * Real.logb 2 ((c : ℝ) / total))

/-- Embedding of `calculate_entropy` (`src/app.py` lines 30-33): frequency
count over the characters, Shannon entropy in bits, rounded to 2 decimals. -/
noncomputable def calculate_entropy (data : String) : Option ℝ :=
  (mapOpt (fun ch => entropyTerm data.data.length (data.data.count ch))
      (counterKeys data.data)).map fun ts => round2 (-ts.sum)

/-! ### The analysis views of the shared secret (`src/app.py` lines 110-142) -/

/-- Embedding of `byte_values` (line 110): `[int(c, 16) for c in ss[:64]]`. -/
def byteValues (ss : String) : Option (List ℕ) :=
  mapOpt hexDigitVal (ss.data.take 64)

/-- Embedding of `grid` (line 111): `np.array(byte_values).reshape(8, 8)`,
which raises unless there are exactly 64 values. -/
def heatmapGrid (ss : String) : Option (List (List ℕ)) := do
  let vs ← byteValues ss
  if vs.length = 64 then some (chunksOf 8 vs) else none

/-- Embedding of `hex_pairs` (line 127):
`[ss[i:i+2] for i in range(0, min(len(ss), 60), 2)]`. -/
def hexPairs (ss : String) : List (List Char) :=
  chunksOf 2 (ss.data.take (min ss.length 60))

/-- Embedding of `byte_values_3d` after truncation and reshape (lines
128-129): parse each pair with `int(h, 16)`, drop the remainder modulo 3,
and reshape into rows of three. -/
def byteTriplets (ss : String) : Option (List (List ℕ)) := do
  let bs ← mapOpt hexStrVal (hexPairs ss)
  pure (chunksOf 3 (bs.take (bs.length - bs.length % 3)))

/-- Embedding of `byte_counter` (line 141):
`Counter([int(c, 16) for c in ss[:64]])`, as (value, count) pairs in
first-seen order. -/
def byteCounter (ss : String) : Option (List (ℕ × ℕ)) :=
  (byteValues ss).map fun vs => (counterKeys vs).map fun v => (v, vs.count v)

/-! ### Helper lemmas about `mapOpt` -/

theorem mapOpt_some_fun (g : α → β) (l : List α) :
    mapOpt (fun a => some (g a)) l = some (l.map g) := by
  induction l with
  | nil => rfl
  | cons a as ih => simp [mapOpt, ih]

theorem mapOpt_congr {f f' : α → Option β} {l : List α}
    (h : ∀ a ∈ l, f a = f' a) : mapOpt f l = mapOpt f' l := by
  induction l with
  | nil => rfl
  | cons a as ih =>
    simp only [mapOpt, h a (List.mem_cons_self a as),
      ih fun x hx => h x (List.mem_cons_of_mem a hx)]

theorem mapOpt_length {f : α → Option β} :
    ∀ {l : List α} {bs : List β}, mapOpt f l = some bs → bs.length = l.length := by
  intro l
  induction l with
  | nil => intro bs h; simp [mapOpt] at h; simp [← h]
  | cons a as ih =>
    intro bs h
    cases ha : f a with
    | none => simp [mapOpt, ha] at h
    | some b =>
      cases has : mapOpt f as with
      | none => simp [mapOpt, ha, has] at h
      | some bs' =>
        simp [mapOpt, ha, has] at h
        simp [← h, ih has]

theorem mapOpt_mem {f : α → Option β} :
    ∀ {l : List α} {bs : List β}, mapOpt f l = some bs →
      ∀ b ∈ bs, ∃ a ∈ l, f a = some b := by
  intro l
  induction l with
  | nil =>
    intro bs h b hb
    simp [mapOpt] at h
    subst h
    simp at hb
  | cons a as ih =>
    intro bs h b hb
    cases ha : f a with
    | none => simp [mapOpt, ha] at h
    | some b' =>
      cases has : mapOpt f as with
      | none => simp [mapOpt, ha, has] at h
      | some bs' =>
        simp [mapOpt, ha, has] at h
        subst h
        rcases List.mem_cons.1 hb with rfl | hb'
        · exact ⟨a, List.mem_cons_self a as, ha⟩
        · obtain ⟨x, hx, hfx⟩ := ih has b hb'
          exact ⟨x, List.mem_cons_of_mem a hx, hfx⟩

theorem mapOpt_isSome {f : α → Option β} :
    ∀ {l : List α}, (∀ a ∈ l, (f a).isSome) → ∃ bs, mapOpt f l = some bs := by
  intro l
  induction l with
  | nil => exact fun _ => ⟨[], rfl⟩
  | cons a as ih =>
    intro h
    obtain ⟨b, hb⟩ := Option.isSome_iff_exists.1 (h a (List.mem_cons_self a as))
    obtain ⟨bs, hbs⟩ := ih fun x hx => h x (List.mem_cons_of_mem a hx)
    exact ⟨b :: bs, by simp [mapOpt, hb, hbs]⟩

/-! ### Helper lemmas about `chunksOf` -/

theorem chunksAux_flatten {n : ℕ} (hn : 0 < n) :
    ∀ (fuel : ℕ) (l : List α), l.length ≤ fuel →
      (chunksAux n fuel l).flatten = l := by
  intro fuel
  induction fuel with
  | zero =>
    intro l hl
    cases l with
    | nil => rfl
    | cons a as => simp at hl
  | succ fuel ih =>
    intro l hl
    cases l with
    | nil => rfl
    | cons a as =>
      have hdrop : ((a :: as).drop n).length ≤ fuel := by
        simp only [List.length_drop, List.length_cons]
        simp only [List.length_cons] at hl
        omega
      simp only [chunksAux, List.flatten_cons, ih _ hdrop, List.take_append_drop]

theorem chunksOf_flatten {n : ℕ} (hn : 0 < n) (l : List α) :
    (chunksOf n l).flatten = l :=
  chunksAux_flatten hn l.length l le_rfl

theorem chunksAux_length {n : ℕ} (hn : 0 < n) :
    ∀ (fuel : ℕ) (l : List α), l.length ≤ fuel → n ∣ l.length →
      (chunksAux n fuel l).length = l.length / n := by
  intro fuel
  induction fuel with
  | zero =>
    intro l hl _
    cases l with
    | nil => simp [chunksAux]
    | cons a as => simp at hl
  | succ fuel ih
  =>
    intro l hl hdvd
    cases l with
    | nil => simp [chunksAux]
    | cons a as =>
      obtain ⟨k, hk⟩ := hdvd
      have hk1 : 1 ≤ k := by
        rcases Nat.eq_zero_or_pos k with rfl | h
        · simp at hk
        · exact h
      have hdroplen : ((a :: as).drop n).length = n * (k - 1) := by
        rw [List.length_drop, hk]
        cases k with
        | zero => omega
        | succ k' => simp [Nat.mul_succ]
      have hle : ((a :: as).drop n).length ≤ fuel := by
        simp only [List.length_drop, List.length_cons]
        simp only [List.length_cons] at hl
        omega
      have := ih ((a :: as).drop n) hle ⟨k - 1, hdroplen⟩
      have hk' : as.length + 1 = n * k := by simpa using hk
      simp only [chunksAux, List.length_cons, this, hdroplen]
      rw [hk', Nat.mul_div_cancel_left _ hn, Nat.mul_div_cancel_left _ hn]
      omega

theorem chunksOf_length {n : ℕ} (hn : 0 < n) (l : List α) (hdvd : n ∣ l.length) :
    (chunksOf n l).length = l.length / n :=
  chunksAux_length hn l.length l le_rfl hdvd

theorem chunksAux_mem_length {n : ℕ} (hn : 0 < n) :
    ∀ (fuel : ℕ) (l : List α), l.length ≤ fuel → n ∣ l.length →
      ∀ c ∈ chunksAux n fuel l, c.length = n := by
  intro fuel
  induction fuel with
  | zero =>
    intro l hl _ c hc
    cases l with
    | nil => simp [chunksAux] at hc
    | cons a as => simp at hl
  | succ fuel ih =>
    intro l hl hdvd c hc
    cases l with
    | nil => simp [chunksAux] at hc
    | cons a as =>
      obtain ⟨k, hk⟩ := hdvd
      have hk1 : 1 ≤ k := by
        rcases Nat.eq_zero_or_pos k with rfl | h
        · simp at hk
        · exact h
      have hnlen : n ≤ (a :: as).length := by
        rw [hk]; calc n = n * 1 := (Nat.mul_one n).symm
          _ ≤ n * k := Nat.mul_le_mul_left n hk1
      have hdroplen : ((a :: as).drop n).length = n * (k - 1) := by
        rw [List.length_drop, hk]
        cases k with
        | zero => omega
        | succ k' => simp [Nat.mul_succ]
      have hle : ((a :: as).drop n).length ≤ fuel := by
        simp only [List.length_drop, List.length_cons]
        simp only [List.length_cons] at hl
        omega
      simp only [chunksAux, List.mem_cons] at hc
      rcases hc with rfl | hc'
      · rw [List.length_take]
        omega
      · exact ih _ hle ⟨k - 1, hdroplen⟩ c hc'

theorem chunksAux_mem_mem :
    ∀ (fuel : ℕ) (l : List α) (c : List α), c ∈ chunksAux n fuel l →
      ∀ x ∈ c, x ∈ l := by
  intro fuel
  induction fuel with
  | zero =>
    intro l c hc
    cases l with
    | nil => simp [chunksAux] at hc
    | cons a as => simp [chunksAux] at hc
  | succ fuel ih =>
    intro l c hc x hx
    cases l with
    | nil => simp [chunksAux] at hc
    | cons a as =>
      simp only [chunksAux, List.mem_cons] at hc
      rcases hc with rfl | hc'
      · exact List.mem_of_mem_take hx
      · exact List.mem_of_mem_drop (ih _ _ hc' x hx)

theorem chunksOf_mem_mem {n : ℕ} (l : List α) (c : List α)
    (hc : c ∈ chunksOf n l) : ∀ x ∈ c, x ∈ l :=
  chunksAux_mem_mem l.length l c hc

theorem chunksOf_mem_length {n : ℕ} (hn : 0 < n) (l : List α)
    (hdvd : n ∣ l.length) : ∀ c ∈ chunksOf n l, c.length = n :=
  chunksAux_mem_length hn l.length l le_rfl hdvd

/-! ### Helper lemmas about `counterKeys` -/

theorem counterKeys_core_mem [DecidableEq α] :
    ∀ (l : List α) (acc : List α) (x : α),
      x ∈ l.foldl (fun acc y => if y ∈ acc then acc else acc ++ [y]) acc ↔
        x ∈ acc ∨ x ∈ l := by
  intro l
  induction l with
  | nil => simp
  | cons a as ih =>
    intro acc x
    simp only [List.foldl_cons]
    by_cases ha : a ∈ acc
    · rw [if_pos ha, ih]
      constructor
      · rintro (h | h)
        · exact Or.inl h
        · exact Or.inr (List.mem_cons_of_mem a h)
      · rintro (h | h)
        · exact Or.inl h
        · rcases List.mem_cons.1 h with rfl | h'
          · exact Or.inl ha
          · exact Or.inr h'
    · rw [if_neg ha, ih]
      simp only [List.mem_append, List.mem_singleton, List.mem_cons]
      tauto

theorem mem_counterKeys [DecidableEq α] (l : List α) (x : α) :
    x ∈ counterKeys l ↔ x ∈ l := by
  unfold counterKeys
  rw [counterKeys_core_mem]
  simp

theorem counterKeys_core_nodup [DecidableEq α] :
    ∀ (l : List α) (acc : List α), acc.Nodup →
      (l.foldl (fun acc y => if y ∈ acc then acc else acc ++ [y]) acc).Nodup := by
  intro l
  induction l with
  | nil => exact fun acc h => h
  | cons a as ih =>
    intro acc hacc
    simp only [List.foldl_cons]
    by_cases ha : a ∈ acc
    · rw [if_pos ha]; exact ih acc hacc
    · rw [if_neg ha]
      refine ih _ (List.Nodup.append hacc (List.nodup_singleton a) ?_)
      simp [List.disjoint_singleton, ha]

theorem counterKeys_nodup [DecidableEq α] (l : List α) :
    (counterKeys l).Nodup :=
  counterKeys_core_nodup l [] List.nodup_nil

theorem counterKeys_toFinset [DecidableEq α] (l : List α) :
    (counterKeys l).toFinset = l.toFinset := by
  ext x
  simp [mem_counterKeys]

/-- Sum of the multiplicities of the distinct elements recovers the length:
the fact behind "the Counter's counts sum to `len(data)`". -/
theorem counterKeys_sum_count [DecidableEq α] (l : List α) :
    ((counterKeys l).map fun x => l.count x).sum = l.length := by
  rw [← List.sum_toFinset _ (counterKeys_nodup l), counterKeys_toFinset]
  exact List.sum_toFinset_count_eq_length l

/-! ### Helper lemmas about `calculate_entropy` -/

/-- The value of one entropy summand when the total is nonzero. -/
noncomputable def entTermVal (total c : ℕ) : ℝ :=
  ((c : ℝ) / total) * Real.logb 2 ((c : ℝ) / total)

theorem calculate_entropy_of_ne_nil (data : String) (h : data.data ≠ []) :
    calculate_entropy data =
      some (round2 (-((counterKeys data.data).map fun ch =>
        entTermVal data.data.length (data.data.count ch)).sum)) := by
  have hn : data.data.length ≠ 0 := fun h0 => h (List.length_eq_zero.1 h0)
  have hn' : data.length ≠ 0 := hn
  unfold calculate_entropy
  rw [@mapOpt_congr Char ℝ _
    (fun ch => some (entTermVal data.data.length (data.data.count ch))) _
    fun ch _ => by simp [entropyTerm, entTermVal, hn, hn']]
  rw [mapOpt_some_fun]
  rfl

theorem calculate_entropy_of_nil (data : String) (h : data.data = []) :
    calculate_entropy data = some (round2 0) := by
  unfold calculate_entropy
  rw [h]
  show some (round2 (-(([] : List ℝ)).sum)) = some (round2 0)
  norm_num

/-- Rounding to two decimals keeps a value of `[0, 4]` inside `[0, 4]`. -/
theorem round2_bounds {x : ℝ} (h0 : 0 ≤ x) (h4 : x ≤ 4) :
    0 ≤ round2 x ∧ round2 x ≤ 4 := by
  unfold round2
  constructor
  · apply div_nonneg _ (by norm_num)
    have hz : (0 : ℤ) ≤ round (x * 100) := by
      rw [round_eq]
      apply Int.floor_nonneg.2
      linarith
    exact_mod_cast hz
  · rw [div_le_iff₀ (by norm_num : (0 : ℝ) < 100)]
    have hz : round (x * 100) ≤ 400 := by
      rw [round_eq]
      apply Int.floor_le_iff.2
      push_cast
      linarith
    calc ((round (x * 100) : ℤ) : ℝ) ≤ 400 := by exact_mod_cast hz
      _ = 4 * 100 := by norm_num

/-! ### Claim C4: `calculate_entropy` is total (no division by zero) -/

/-- C4: on every string, the empty string included, `calculate_entropy`
evaluates without a division by zero: the division by the total length sits
inside the per-character sum, which is empty for an empty string, so the
function returns a value (`some`) on every input. -/
theorem calculate_entropy_total (data : String) :
    (calculate_entropy data).isSome := by
  by_cases h : data.data = []
  · rw [calculate_entropy_of_nil data h]; rfl
  · rw [calculate_entropy_of_ne_nil data h]; rfl

/-! ### Claim C10: entropy is permutation invariant -/

/-- C10: `calculate_entropy` depends only on the multiset of characters: two
strings that are rearrangements of one another get the same entropy. -/
theorem calculate_entropy_perm_invariant (s t : String)
    (h : s.data.Perm t.data) :
    calculate_entropy s = calculate_entropy t := by
  by_cases hs : s.data = []
  · have ht : t.data = [] := by
      rw [hs] at h
      exact h.symm.eq_nil
    rw [calculate_entropy_of_nil s hs, calculate_entropy_of_nil t ht]
  · have ht : t.data ≠ [] := fun h0 => hs (by
      rw [h0] at h
      exact h.eq_nil)
    rw [calculate_entropy_of_ne_nil s hs, calculate_entropy_of_ne_nil t ht]
    have hkeys : (counterKeys s.data).Perm (counterKeys t.data) :=
      (List.perm_ext_iff_of_nodup (counterKeys_nodup _)
        (counterKeys_nodup _)).2 fun a => by
          rw [mem_counterKeys, mem_counterKeys]
          exact h.mem_iff
    have hfun : (fun ch => entTermVal s.data.length (s.data.count ch)) =
        fun ch => entTermVal t.data.length (t.data.count ch) := by
      funext ch
      rw [h.length_eq, h.count_eq]
    rw [hfun, (hkeys.map _).sum_eq]

/-! ### Claim C5: entropy of a 64-character hex string lies in [0, 4] -/

/-- Gibbs-style bound for one entropy summand: for `0 < p`,
`-(p log p) ≤ 1/16 - p + p log 16` (from `log x ≤ x - 1`). -/
theorem gibbs_term_bound {p : ℝ} (hp : 0 < p) :
    -(p * Real.log p) ≤ 1 / 16 - p + p * Real.log 16 := by
  have h1 : Real.log (1 / (16 * p)) ≤ 1 / (16 * p) - 1 :=
    Real.log_le_sub_one_of_pos (by positivity)
  have h2 : Real.log (1 / (16 * p)) = -(Real.log 16 + Real.log p) := by
    rw [one_div, Real.log_inv, Real.log_mul (by norm_num) hp.ne']
  rw [h2] at h1
  have h4 := mul_le_mul_of_nonneg_left h1 hp.le
  have h3 : p * (1 / (16 * p)) = 1 / 16 := by
    field_simp
    ring
  have h5 : p * -(Real.log 16 + Real.log p) =
      -(p * Real.log 16) - p * Real.log p := by ring
  have h6 : p * (1 / (16 * p) - 1) = 1 / 16 - p := by rw [mul_sub, h3]; ring
  rw [h5, h6] at h4
  linarith

/-- C5: on any 64-character string over the lowercase hex alphabet, the
entropy is defined, is the 2-decimal rounding of the raw entropy, and lies in
the closed interval [0, 4]. -/
theorem calculate_entropy_hex64_bounds (data : String)
    (hlen : data.length = 64) (hhex : ∀ c ∈ data.data, isHexLower c) :
    ∃ r, calculate_entropy data = some r ∧ 0 ≤ r ∧ r ≤ 4 := by
  have hlen' : data.data.length = 64 := hlen
  have hne : data.data ≠ [] := by
    intro h0
    rw [h0] at hlen'
    simp at hlen'
  set l := data.data with hl
  -- the list sum as a Finset sum over the distinct characters
  have hS : ((counterKeys l).map fun ch => entTermVal l.length (l.count ch)).sum
      = ∑ ch ∈ l.toFinset, entTermVal l.length (l.count ch) := by
    rw [← List.sum_toFinset _ (counterKeys_nodup l), counterKeys_toFinset]
  -- basic facts about the frequency distribution
  have hcount_pos : ∀ ch ∈ l.toFinset, 0 < l.count ch := fun ch hch =>
    List.count_pos_iff.2 (List.mem_toFinset.1 hch)
  have hsum_count : ∑ ch ∈ l.toFinset, ((l.count ch : ℝ)) = 64 := by
    rw [← Nat.cast_sum, List.sum_toFinset_count_eq_length l, hlen']
    norm_num
  have hcard : l.toFinset.card ≤ 16 := by
    have hsub : l.toFinset ⊆ hexAlphabet.toFinset := fun c hc =>
      List.mem_toFinset.2 (hhex c (List.mem_toFinset.1 hc))
    have h16 : hexAlphabet.toFinset.card = 16 := by decide
    calc l.toFinset.card ≤ hexAlphabet.toFinset.card := Finset.card_le_card hsub
      _ = 16 := h16
  -- abbreviations
  set F := l.toFinset with hF
  have hlog2 : (0 : ℝ) < Real.log 2 := Real.log_pos (by norm_num)
  have hterm : ∀ ch ∈ F, entTermVal l.length (l.count ch) =
      ((l.count ch : ℝ) / 64) * Real.log ((l.count ch : ℝ) / 64) / Real.log 2 := by
    intro ch _
    rw [entTermVal, hlen', Real.logb, mul_div_assoc]
    norm_num
  -- the sum with natural logarithms
  have hSsplit : ∑ ch ∈ F, entTermVal l.length (l.count ch) =
      (∑ ch ∈ F, ((l.count ch : ℝ) / 64) * Real.log ((l.count ch : ℝ) / 64)) /
        Real.log 2 := by
    rw [Finset.sum_congr rfl hterm, ← Finset.sum_div]
  set T := ∑ ch ∈ F, ((l.count ch : ℝ) / 64) * Real.log ((l.count ch : ℝ) / 64)
    with hT
  -- each probability is in (0, 1]
  have hp_pos : ∀ ch ∈ F, (0 : ℝ) < (l.count ch : ℝ) / 64 := by
    intro ch hch
    have := hcount_pos ch hch
    positivity
  have hp_le_one : ∀ ch ∈ F, ((l.count ch : ℝ) / 64) ≤ 1 := by
    intro ch hch
    rw [div_le_one (by norm_num)]
    have : l.count ch ≤ l.length := List.count_le_length ch l
    rw [hlen'] at this
    exact_mod_cast this
  -- the probabilities sum to 1
  have hsum_p : ∑ ch ∈ F, ((l.count ch : ℝ) / 64) = 1 := by
    rw [← Finset.sum_div, hsum_count]
    norm_num
  -- lower bound: T ≤ 0, each term is nonpositive
  have hT_nonpos : T ≤ 0 := by
    apply Finset.sum_nonpos
    intro ch hch
    have hlog_nonpos : Real.log ((l.count ch : ℝ) / 64) ≤ 0 :=
      Real.log_nonpos (hp_pos ch hch).le (hp_le_one ch hch)
    calc ((l.count ch : ℝ) / 64) * Real.log ((l.count ch : ℝ) / 64)
        ≤ ((l.count ch : ℝ) / 64) * 0 :=
          mul_le_mul_of_nonneg_left hlog_nonpos (hp_pos ch hch).le
      _ = 0 := mul_zero _
  -- upper bound: -T ≤ log 16 by the Gibbs argument
  have hT_lower : -T ≤ Real.log 16 := by
    have hstep : ∑ ch ∈ F, -(((l.count ch : ℝ) / 64) *
        Real.log ((l.count ch : ℝ) / 64)) ≤
        ∑ ch ∈ F, (1 / 16 - (l.count ch : ℝ) / 64 +
          ((l.count ch : ℝ) / 64) * Real.log 16) :=
      Finset.sum_le_sum fun ch hch => gibbs_term_bound (hp_pos ch hch)
    have hlhs : ∑ ch ∈ F, -(((l.count ch : ℝ) / 64) *
        Real.log ((l.count ch : ℝ) / 64)) = -T := by
      rw [hT, ← Finset.sum_neg_distrib]
    have hrhs : ∑ ch ∈ F, (1 / 16 - (l.count ch : ℝ) / 64 +
        ((l.count ch : ℝ) / 64) * Real.log 16) =
        (F.card : ℝ) / 16 - 1 + Real.log 16 := by
      rw [Finset.sum_add_distrib, Finset.sum_sub_distrib, ← Finset.sum_mul,
        hsum_p, Finset.sum_const, nsmul_eq_mul]
      ring
    rw [hlhs, hrhs] at hstep
    have hcard' : (F.card : ℝ) ≤ 16 := by exact_mod_cast hcard
    linarith
  have hlog16 : Real.log 16 = 4 * Real.log 2 := by
    have h24 : (16 : ℝ) = 2 ^ (4 : ℕ) := by norm_num
    rw [h24, Real.log_pow]
    norm_num
  -- assemble: the raw entropy -S lies in [0, 4]
  set S := ((counterKeys l).map fun ch => entTermVal l.length (l.count ch)).sum
    with hSdef
  have hSval : S = T / Real.log 2 := hS.trans hSsplit
  have hnegS_nonneg : 0 ≤ -S := by
    rw [hSval]
    have : T / Real.log 2 ≤ 0 := div_nonpos_of_nonpos_of_nonneg hT_nonpos hlog2.le
    linarith
  have hnegS_le : -S ≤ 4 := by
    rw [hSval, ← neg_div, div_le_iff₀ hlog2, ← hlog16]
    exact hT_lower
  exact ⟨round2 (-S), by rw [calculate_entropy_of_ne_nil data hne],
    (round2_bounds hnegS_nonneg hnegS_le).1, (round2_bounds hnegS_nonneg hnegS_le).2⟩

/-! ### Claims C1 and C3: decapsulation is the same Deriver call -/

/-- C1: for every choice of encapsulation randomness, message, public key and
secret key, decapsulating the ciphertext produced by `kyber_encapsulate`
returns exactly the sender-side shared secret. -/
theorem decapsulate_matches_encapsulate (randomBytes pk sk : List ℕ)
    (m : String) :
    kyber_decapsulate (kyber_encapsulate randomBytes pk m).1 sk m pk =
      (kyber_encapsulate randomBytes pk m).2 := rfl

/-- C3: `kyber_decapsulate` does not depend on its ciphertext and secret-key
arguments, and always returns `derive_shared_secret message public_key`. -/
theorem decapsulate_ignores_ct_and_sk (m : String) (pk ct1 sk1 ct2 sk2 : List ℕ) :
    kyber_decapsulate ct1 sk1 m pk = kyber_decapsulate ct2 sk2 m pk ∧
      kyber_decapsulate ct1 sk1 m pk = derive_shared_secret m pk :=
  ⟨rfl, rfl⟩

/-- C9: `derive_shared_secret` is exactly the lowercase-hex SHA-256 digest of
the UTF-8 encoding of the message concatenated with the public-key bytes. -/
theorem derive_shared_secret_is_sha256 (m : String) (pk : List ℕ) :
    derive_shared_secret m pk = sha256HexDigest (utf8Encode m ++ pk) := rfl

/-! ### Claim C2: the derived shared secret is a 64-character lowercase hex string -/

theorem wordBytes_lt (w : ℕ) : ∀ b ∈ wordBytes w, b < 256 := by
  intro b hb
  simp [wordBytes] at hb
  rcases hb with rfl | rfl | rfl | rfl <;> exact Nat.mod_lt _ (by norm_num)

theorem sha256Digest_length (msg : List ℕ) : (sha256Digest msg).length = 32 := by
  simp [sha256Digest, wordBytes]

theorem sha256Digest_lt (msg : List ℕ) : ∀ b ∈ sha256Digest msg, b < 256 := by
  intro b hb
  unfold sha256Digest at hb
  simp only [List.mem_append] at hb
  rcases hb with ((((((h | h) | h) | h) | h) | h) | h) | h <;>
    exact wordBytes_lt _ b h

theorem hexChar_isHexLower : ∀ n < 16, isHexLower (hexChar n) := by decide

theorem bytesToHexString_length (bs : List ℕ) :
    (bytesToHexString bs).length = 2 * bs.length := by
  show ((bs.map byteToHex).flatten).length = 2 * bs.length
  induction bs with
  | nil => rfl
  | cons b bs ih =>
    simp only [List.map_cons, List.flatten_cons, List.length_append, ih,
      List.length_cons]
    show 2 + 2 * bs.length = 2 * (bs.length + 1)
    omega

theorem bytesToHexString_hex (bs : List ℕ) (hbs : ∀ b ∈ bs, b < 256) :
    ∀ c ∈ (bytesToHexString bs).data, isHexLower c := by
  intro c hc
  have hc' : c ∈ (bs.map byteToHex).flatten := hc
  obtain ⟨chunk, hchunk, hcin⟩ := List.mem_flatten.1 hc'
  obtain ⟨b, hb, rfl⟩ := List.mem_map.1 hchunk
  have hblt := hbs b hb
  simp only [byteToHex, List.mem_cons, List.not_mem_nil, or_false] at hcin
  rcases hcin with rfl | rfl
  · exact hexChar_isHexLower (b / 16) (by omega)
  · exact hexChar_isHexLower (b % 16) (by omega)

/-- C2: for every message and every public-key byte sequence, the derived
shared secret has length exactly 64, consists only of lowercase hex digits,
and is the lowercase hex encoding of the 256-bit SHA-256 digest of the UTF-8
message concatenated with the key bytes. -/
theorem derive_shared_secret_hex64 (m : String) (pk : List ℕ) :
    (derive_shared_secret m pk).length = 64 ∧
      (∀ c ∈ (derive_shared_secret m pk).data, isHexLower c) ∧
      derive_shared_secret m pk = sha256HexDigest (utf8Encode m ++ pk) := by
  refine ⟨?_, ?_, rfl⟩
  · show (bytesToHexString (sha256Digest (utf8Encode m ++ pk))).length = 64
    rw [bytesToHexString_length, sha256Digest_length]
  · exact bytesToHexString_hex _ (sha256Digest_lt _)

set_option maxRecDepth 100000

/-- FIPS 180-4 test vector: SHA-256 of the empty message. Validates that the
embedded compression function, schedule and padding are really SHA-256. -/
theorem sha256_fips_vector_empty :
    sha256HexDigest [] =
      "e3b0c44298fc1c149afbf4c8996fb92427ae41e4649b934ca495991b7852b855" := by
  decide

/-- FIPS 180-4 test vector: SHA-256 of "abc". -/
theorem sha256_fips_vector_abc :
    sha256HexDigest (utf8Encode "abc") =
      "ba7816bf8f01cfea414140de5dae2223b00361a396177a9cb410ff61f20015ad" := by
  decide

/-! ### Hex parsing lemmas for the analysis views -/

theorem hexDigitVal_of_hex {c : Char} (hc : isHexLower c) :
    ∃ v, hexDigitVal c = some v ∧ v ≤ 15 := by
  have hall : ∀ c ∈ hexAlphabet,
      (hexDigitVal c).isSome ∧ (hexDigitVal c).getD 0 ≤ 15 := by decide
  have h := hall c hc
  obtain ⟨v, hv⟩ := Option.isSome_iff_exists.1 h.1
  refine ⟨v, hv, ?_⟩
  have h2 := h.2
  rw [hv] at h2
  simpa using h2

theorem mapOpt_hex (l : List Char) (h : ∀ c ∈ l, isHexLower c) :
    ∃ vs, mapOpt hexDigitVal l = some vs ∧ vs.length = l.length ∧
      ∀ v ∈ vs, v ≤ 15 := by
  obtain ⟨vs, hvs⟩ := @mapOpt_isSome Char ℕ hexDigitVal l fun c hc => by
    obtain ⟨v, hv, _⟩ := hexDigitVal_of_hex (h c hc)
    simp [hv]
  refine ⟨vs, hvs, mapOpt_length hvs, ?_⟩
  intro v hv
  obtain ⟨c, hc, hfc⟩ := mapOpt_mem hvs v hv
  obtain ⟨v', hv', hb⟩ := hexDigitVal_of_hex (h c hc)
  rw [hfc] at hv'
  cases hv'
  exact hb

theorem hexStrVal_pair {c1 c2 : Char} (h1 : isHexLower c1) (h2 : isHexLower c2) :
    ∃ v, hexStrVal [c1, c2] = some v ∧ v ≤ 255 := by
  obtain ⟨v1, hv1, hb1⟩ := hexDigitVal_of_hex h1
  obtain ⟨v2, hv2, hb2⟩ := hexDigitVal_of_hex h2
  refine ⟨16 * v1 + v2, ?_, by omega⟩
  simp [hexStrVal, mapOpt, hv1, hv2]

/-! ### Claim C6: the heatmap grid is 8 by 8 nibbles and flattens back -/

/-- C6: for a 64-character hex secret, the heatmap grid exists, has exactly 8
rows of 8 entries, every entry is a nibble value in [0, 15], and flattening
it in row-major order reproduces the parsed first 64 hex digits. -/
theorem heatmap_grid_spec (ss : String) (hlen : ss.length = 64)
    (hhex : ∀ c ∈ ss.data, isHexLower c) :
    ∃ vs g, byteValues ss = some vs ∧ heatmapGrid ss = some g ∧
      g.length = 8 ∧ (∀ row ∈ g, row.length = 8) ∧
      (∀ row ∈ g, ∀ v ∈ row, v ≤ 15) ∧ g.flatten = vs := by
  have hlen' : ss.data.length = 64 := hlen
  have htake : ss.data.take 64 = ss.data :=
    List.take_of_length_le (le_of_eq hlen')
  obtain ⟨vs, hvs, hvslen, hvsbound⟩ := mapOpt_hex (ss.data.take 64) fun c hc =>
    hhex c (htake ▸ hc)
  have hbv : byteValues ss = some vs := hvs
  have hvslen' : vs.length = 64 := by
    rw [hvslen, htake, hlen']
  have hdvd : (8 : ℕ) ∣ vs.length := by rw [hvslen']; decide
  refine ⟨vs, chunksOf 8 vs, hbv, ?_, ?_, ?_, ?_, chunksOf_flatten (by norm_num) vs⟩
  · show (byteValues ss).bind _ = _
    rw [hbv]
    simp [hvslen']
  · rw [chunksOf_length (by norm_num) vs hdvd, hvslen']
  · exact chunksOf_mem_length (by norm_num) vs hdvd
  · intro row hrow v hv
    exact hvsbound v (chunksOf_mem_mem vs row hrow v hv)

/-! ### Claim C8: the byte-frequency counts sum to 64 -/

/-- C8: for a 64-character hex secret, the frequency table over the parsed
nibble values exists and its counts sum to exactly 64. -/
theorem byte_counter_sum (ss : String) (hlen : ss.length = 64)
    (hhex : ∀ c ∈ ss.data, isHexLower c) :
    ∃ tbl, byteCounter ss = some tbl ∧ (tbl.map Prod.snd).sum = 64 := by
  have hlen' : ss.data.length = 64 := hlen
  have htake : ss.data.take 64 = ss.data :=
    List.take_of_length_le (le_of_eq hlen')
  obtain ⟨vs, hvs, hvslen, _⟩ := mapOpt_hex (ss.data.take 64) fun c hc =>
    hhex c (htake ▸ hc)
  have hvslen' : vs.length = 64 := by rw [hvslen, htake, hlen']
  refine ⟨(counterKeys vs).map fun v => (v, vs.count v), ?_, ?_⟩
  · show (byteValues ss).map _ = _
    show (mapOpt hexDigitVal (ss.data.take 64)).map _ = _
    rw [hvs]
    rfl
  · rw [List.map_map]
    have : (Prod.snd ∘ fun v => (v, vs.count v)) = fun v => vs.count v := rfl
    rw [this, counterKeys_sum_count, hvslen']

/-! ### Claim C7: the 3D byte-triplet list -/

/-- C7: for an even-length hex secret, the triplet list exists, its length is
`min 60 (length) / 2 / 3` (integer division), every row is a full triplet,
and every coordinate is a byte value in [0, 255]. -/
theorem byte_triplets_spec (ss : String) (heven : ss.length % 2 = 0)
    (hhex : ∀ c ∈ ss.data, isHexLower c) :
    ∃ ts, byteTriplets ss = some ts ∧
      ts.length = min 60 ss.length / 2 / 3 ∧
      ∀ t ∈ ts, t.length = 3 ∧ ∀ v ∈ t, v ≤ 255 := by
  have hLdef : ss.length = ss.data.length := rfl
  set L := ss.data.length with hL
  have heven' : L % 2 = 0 := by rw [← hLdef]; exact heven
  set taken := ss.data.take (min ss.length 60) with htaken
  have htklen : taken.length = min L 60 := by
    rw [htaken, List.length_take, hLdef]
    omega
  have htksub : ∀ c ∈ taken, c ∈ ss.data := fun c hc => List.mem_of_mem_take hc
  have hdvd2 : (2 : ℕ) ∣ taken.length := by
    rw [htklen]
    omega
  -- every pair is two hex characters, hence parses to a byte value
  have hpair : ∀ p ∈ hexPairs ss, ∃ v, hexStrVal p = some v ∧ v ≤ 255 := by
    intro p hp
    have hplen : p.length = 2 := chunksOf_mem_length (by norm_num) taken hdvd2 p hp
    have hpsub : ∀ c ∈ p, c ∈ taken := chunksOf_mem_mem taken p hp
    match p, hplen with
    | [c1, c2], _ =>
      exact hexStrVal_pair
        (hhex c1 (htksub c1 (hpsub c1 (by simp))))
        (hhex c2 (htksub c2 (hpsub c2 (by simp))))
  obtain ⟨bs, hbs⟩ := @mapOpt_isSome (List Char) ℕ hexStrVal (hexPairs ss)
    fun p hp => by
      obtain ⟨v, hv, _⟩ := hpair p hp
      simp [hv]
  have hbslen : bs.length = min L 60 / 2 := by
    rw [mapOpt_length hbs]
    show (chunksOf 2 taken).length = min L 60 / 2
    rw [chunksOf_length (by norm_num) taken hdvd2, htklen]
  have hbsbound : ∀ v ∈ bs, v ≤ 255 := by
    intro v hv
    obtain ⟨p, hp, hfp⟩ := mapOpt_mem hbs v hv
    obtain ⟨v', hv', hb⟩ := hpair p hp
    rw [hfp] at hv'
    cases hv'
    exact hb
  set trunc := bs.take (bs.length - bs.length % 3) with htrunc
  have htrunclen : trunc.length = bs.length - bs.length % 3 := by
    rw [htrunc, List.length_take]
    omega
  have hdvd3 : (3 : ℕ) ∣ trunc.length := by
    rw [htrunclen]
    omega
  refine ⟨chunksOf 3 trunc, ?_, ?_, ?_⟩
  · show (mapOpt hexStrVal (hexPairs ss)).bind _ = _
    rw [hbs]
    rfl
  · rw [chunksOf_length (by norm_num) trunc hdvd3, htrunclen, hbslen]
    rw [Nat.min_comm, ← hLdef]
    omega
  · intro t ht
    refine ⟨chunksOf_mem_length (by norm_num) trunc hdvd3 t ht, ?_⟩
    intro v hv
    exact hbsbound v (List.mem_of_mem_take (chunksOf_mem_mem trunc t ht v hv))

/-! ### Concrete witnesses -/

/-- Witness for C5 at a concrete 64-character hex string. -/
theorem calculate_entropy_hex64_bounds_witness :
    ("0123456789abcdef0123456789abcdef0123456789abcdef0123456789abcdef".length
        = 64 ∧
      ∀ c ∈ "0123456789abcdef0123456789abcdef0123456789abcdef0123456789abcdef".data,
        isHexLower c) ∧
    ∃ r, calculate_entropy
        "0123456789abcdef0123456789abcdef0123456789abcdef0123456789abcdef" =
        some r ∧ 0 ≤ r ∧ r ≤ 4 :=
  ⟨⟨by decide, by decide⟩,
    calculate_entropy_hex64_bounds _ (by decide) (by decide)⟩

/-- Witness for C6 at a concrete 64-character hex string. -/
theorem heatmap_grid_spec_witness :
    ("00112233445566778899aabbccddeeff00112233445566778899aabbccddeeff".length
        = 64 ∧
      ∀ c ∈ "00112233445566778899aabbccddeeff00112233445566778899aabbccddeeff".data,
        isHexLower c) ∧
    ∃ vs g, byteValues
        "00112233445566778899aabbccddeeff00112233445566778899aabbccddeeff" =
          some vs ∧
      heatmapGrid
        "00112233445566778899aabbccddeeff00112233445566778899aabbccddeeff" =
          some g ∧
      g.length = 8 ∧ (∀ row ∈ g, row.length = 8) ∧
      (∀ row ∈ g, ∀ v ∈ row, v ≤ 15) ∧ g.flatten = vs :=
  ⟨⟨by decide, by decide⟩, heatmap_grid_spec _ (by decide) (by decide)⟩

/-- Witness for C7 at a concrete even-length hex string. -/
theorem byte_triplets_spec_witness :
    ("deadbeef0123".length % 2 = 0 ∧
      ∀ c ∈ "deadbeef0123".data, isHexLower c) ∧
    ∃ ts, byteTriplets "deadbeef0123" = some ts ∧
      ts.length = min 60 "deadbeef0123".length / 2 / 3 ∧
      ∀ t ∈ ts, t.length = 3 ∧ ∀ v ∈ t, v ≤ 255 :=
  ⟨⟨by decide, by decide⟩, byte_triplets_spec _ (by decide) (by decide)⟩

/-- Witness for C8 at a concrete 64-character hex string. -/
theorem byte_counter_sum_witness :
    ("ffeeddccbbaa99887766554433221100ffeeddccbbaa99887766554433221100".length
        = 64 ∧
      ∀ c ∈ "ffeeddccbbaa99887766554433221100ffeeddccbbaa99887766554433221100".data,
        isHexLower c) ∧
    ∃ tbl, byteCounter
        "ffeeddccbbaa99887766554433221100ffeeddccbbaa99887766554433221100" =
          some tbl ∧
      (tbl.map Prod.snd).sum = 64 :=
  ⟨⟨by decide, by decide⟩, byte_counter_sum _ (by decide) (by decide)⟩

/-- Witness for C10 at a concrete pair of strings that are rearrangements of
one another. -/
theorem calculate_entropy_perm_invariant_witness :
    "abba".data.Perm "baab".data ∧
      calculate_entropy "abba" = calculate_entropy "baab" :=
  ⟨by decide, calculate_entropy_perm_invariant _ _ (by decide)⟩
